import Mathlib

/-!
Verification of the reference-profile sampling routine of the PID GUI
scripts (pidgui_starter_kit.py / pidgui_starter.py).

The routine under study is the loop inside simulate_pid_step:

    crnt_key = 0
    counter = 0
    for val in t:
        for item in ref_profile:
            if val > item:
                crnt_key = item
        r[counter] = ref_profile[crnt_key]
        counter += 1

A Python dict is embedded as an association list of (key, value) pairs in
its iteration (insertion) order; numeric values are embedded as rationals.
Iterating a dict visits its keys in stored order, so the inner loop is a
left fold over the stored entries that overwrites crnt_key with every key
strictly below val.  The subscript ref_profile[crnt_key] can raise KeyError,
so the whole loop is Option-valued in the embedding.
-/

namespace PIDGui

/-- A profile entry: (time threshold, setpoint value). -/
abbrev Entry := ℚ × ℚ

/-- A Python dict embedded as an association list in iteration order. -/
abbrev Profile := List Entry

/-- The keys of a profile, in iteration order. -/
def keys (ps : Profile) : List ℚ := ps.map Prod.fst

/-- Dict subscript ref_profile[k]: value at the first entry whose key is k,
KeyError (none) if the key is absent. -/
def lookupKey : Profile → ℚ → Option ℚ
  | [], _ => none
  | p :: rest, k => if p.1 = k then some p.2 else lookupKey rest k

/-- The inner loop, for item in ref_profile: if val > item: crnt_key = item.
A left fold over the stored entries that overwrites the tracked key with
every key strictly below val; the result is the last stored key below val,
or the incoming crnt_key when no stored key is below val. -/
def stepKey (ps : Profile) (crnt_key : ℚ) (val : ℚ) : ℚ :=
  ps.foldl (fun acc p => if val > p.1 then p.1 else acc) crnt_key

/-- The outer loop with the tracked key threaded through: for each timestamp
rescan the profile updating crnt_key, then emit ref_profile[crnt_key].
A KeyError aborts the computation (none). -/
def buildRefGo (ps : Profile) (crnt_key : ℚ) : List ℚ → Option (List ℚ)
  | [] => some []
  | t :: ts =>
    let c := stepKey ps crnt_key t
    match lookupKey ps c with
    | none => none
    | some v => (buildRefGo ps c ts).map (fun r => v :: r)

/-- The reference-building loop of simulate_pid_step: crnt_key starts at 0
and the loop runs over the whole time vector. -/
def build_reference (ps : Profile) (times : List ℚ) : Option (List ℚ) :=
  buildRefGo ps 0 times

/-- The fixed profile of the scripts (module-level ref_profile dict),
in its insertion order. -/
def ref_profile : Profile :=
  [(0, 1), (3, 1/2), (6, 3/2), (10, -1/2), (15, 2), (20, -3), (25, 0)]

/-- The stored keys strictly below t, in iteration order. -/
def keysBelow (ps : Profile) (t : ℚ) : List ℚ :=
  (keys ps).filter (fun k => k < t)

/-- The two-entry mapping 0 to 1.0 and 3 to 0.5 stored with ascending keys. -/
def sorted_pair_profile : Profile := [(0, 1), (3, 1/2)]

/-- The same mapping as sorted_pair_profile stored in the opposite order. -/
def swapped_profile : Profile := [(3, 1/2), (0, 1)]

/-- The mapping 0 to 1.0, 3 to 0.5, 6 to 1.5 stored with descending keys. -/
def rev_profile : Profile := [(6, 3/2), (3, 1/2), (0, 1)]

/-- Modelled from the spec, section 4.1: the per-timestamp full-rescan
specification of build_reference.  For each timestamp independently, take
the maximum stored key strictly below the timestamp; when none exists fall
back to the smallest stored key; emit the profile value at the chosen key
(0 for the impossible case of an empty profile). -/
def refSpecAt (ps : Profile) (t : ℚ) : ℚ :=
  match ((keys ps).filter (fun k => k < t)).max? with
  | some k => (lookupKey ps k).getD 0
  | none =>
    match (keys ps).min? with
    | some k => (lookupKey ps k).getD 0
    | none => 0

/-- Modelled from the spec, section 4.1: the full-rescan specification
applied independently at every timestamp. -/
def build_reference_spec (ps : Profile) (times : List ℚ) : List ℚ :=
  times.map (refSpecAt ps)

/-- One advance of the incremental cursor: starting from the current entry,
move onto each next stored entry whose key is strictly below t, and stop at
the first entry whose key is not. -/
def twoPtrStep : Entry → Profile → ℚ → Entry × Profile
  | cur, [], _ => (cur, [])
  | cur, p :: rest, t =>
    if p.1 < t then twoPtrStep p rest t else (cur, p :: rest)

/-- The incremental loop: advance the cursor for each timestamp in turn and
emit the value of the entry under the cursor. -/
def twoPtrGo : Entry → Profile → List ℚ → List ℚ
  | _, _, [] => []
  | cur, rest, t :: ts =>
    (twoPtrStep cur rest t).1.2 ::
      twoPtrGo (twoPtrStep cur rest t).1 (twoPtrStep cur rest t).2 ts

/-- The incremental two-pointer formulation: a cursor over the profile
entries that starts at the first entry and only ever advances. -/
def two_pointer_ref (ps : Profile) (times : List ℚ) : List ℚ :=
  match ps with
  | [] => []
  | p :: rest => twoPtrGo p rest times

/-! ### Basic lemmas: totality and shape -/

@[simp] theorem keys_nil : keys [] = [] := rfl

@[simp] theorem keys_cons (p : Entry) (rest : Profile) :
    keys (p :: rest) = p.1 :: keys rest := rfl

/-- The inner fold leaves the tracked key unchanged or lands on a stored key. -/
theorem stepKey_eq_or_mem (ps : Profile) (c val : ℚ) :
    stepKey ps c val = c ∨ stepKey ps c val ∈ keys ps := by
  unfold stepKey
  induction ps generalizing c with
  | nil => exact Or.inl rfl
  | cons p rest ih =>
    simp only [List.foldl_cons]
    rcases ih (if val > p.1 then p.1 else c) with h | h
    · rw [h]
      by_cases hv : val > p.1
      · rw [if_pos hv]
        exact Or.inr (by simp)
      · rw [if_neg hv]
        exact Or.inl rfl
    · exact Or.inr (by simp only [keys_cons, List.mem_cons]; exact Or.inr h)

/-- Lookup succeeds exactly on stored keys. -/
theorem lookupKey_isSome_iff (ps : Profile) (k : ℚ) :
    (lookupKey ps k).isSome ↔ k ∈ keys ps := by
  induction ps with
  | nil => simp [lookupKey, keys]
  | cons p rest ih =>
    by_cases h : p.1 = k
    · simp [lookupKey, h]
    · simp only [lookupKey, if_neg h, keys_cons, List.mem_cons, ih]
      constructor
      · exact Or.inr
      · rintro (rfl | h2)
        · exact absurd rfl h
        · exact h2

/-- If the tracked key is stored, every later tracked key is stored, and the
loop runs to completion. -/
theorem buildRefGo_total (ps : Profile) (times : List ℚ) (c : ℚ)
    (hc : c ∈ keys ps) : ∃ out, buildRefGo ps c times = some out := by
  induction times generalizing c with
  | nil => exact ⟨[], rfl⟩
  | cons t ts ih =>
    have hmem : stepKey ps c t ∈ keys ps := by
      rcases stepKey_eq_or_mem ps c t with h | h
      · rw [h]; exact hc
      · exact h
    have hsome : (lookupKey ps (stepKey ps c t)).isSome :=
      (lookupKey_isSome_iff ps _).mpr hmem
    obtain ⟨v, hv⟩ := Option.isSome_iff_exists.mp hsome
    obtain ⟨out, hout⟩ := ih (stepKey ps c t) hmem
    exact ⟨v :: out, by simp [buildRefGo, hv, hout]⟩

/-- Whenever the loop completes, the output has the length of the input. -/
theorem buildRefGo_length (ps : Profile) (times : List ℚ) (c : ℚ)
    (out : List ℚ) (h : buildRefGo ps c times = some out) :
    out.length = times.length := by
  induction times generalizing c out with
  | nil =>
    simp only [buildRefGo, Option.some_inj] at h
    simp [← h]
  | cons t ts ih =>
    simp only [buildRefGo] at h
    rcases hl : lookupKey ps (stepKey ps c t) with _ | v
    · rw [hl] at h; exact absurd h (by simp)
    · rw [hl] at h
      rcases hr : buildRefGo ps (stepKey ps c t) ts with _ | rest
      · rw [hr] at h; exact absurd h (by simp)
      · rw [hr] at h
        have hout : out = v :: rest := by simpa using h.symm
        simp [hout, ih _ _ hr]

/-! ### The carried key: when it matters and when it does not -/

/-- As soon as some stored key lies strictly below val, the inner rescan
overwrites the tracked key, so the incoming tracked key is irrelevant. -/
theorem stepKey_carry_irrelevant (ps : Profile) (val : ℚ)
    (hcross : ∃ k ∈ keys ps, k < val) (c c' : ℚ) :
    stepKey ps c val = stepKey ps c' val := by
  unfold stepKey
  induction ps generalizing c c' with
  | nil => simp at hcross
  | cons p rest ih =>
    simp only [List.foldl_cons]
    by_cases hv : val > p.1
    · rw [if_pos hv, if_pos hv]
    · rw [if_neg hv, if_neg hv]
      rcases hcross with ⟨k, hk, hklt⟩
      simp only [keys_cons, List.mem_cons] at hk
      rcases hk with rfl | hk
      · exact absurd hklt hv
      · exact ih ⟨k, hk, hklt⟩ c c'

/-- When no stored key lies strictly below val, the inner rescan leaves the
tracked key unchanged. -/
theorem stepKey_no_below (ps : Profile) (val c : ℚ)
    (h : ∀ k ∈ keys ps, ¬ k < val) :
    stepKey ps c val = c := by
  unfold stepKey
  induction ps generalizing c with
  | nil => rfl
  | cons p rest ih =>
    simp only [List.foldl_cons]
    rw [if_neg (h p.1 (by simp))]
    exact ih c (fun k hk => h k (by simp [hk]))

/-- Shape of one iteration of the outer loop. -/
theorem buildRefGo_cons (ps : Profile) (c t : ℚ) (ts : List ℚ)
    (out : List ℚ) (h : buildRefGo ps c (t :: ts) = some out) :
    ∃ v rest, lookupKey ps (stepKey ps c t) = some v ∧
      buildRefGo ps (stepKey ps c t) ts = some rest ∧ out = v :: rest := by
  simp only [buildRefGo] at h
  rcases hl : lookupKey ps (stepKey ps c t) with _ | v
  · rw [hl] at h; exact absurd h (by simp)
  · rw [hl] at h
    rcases hr : buildRefGo ps (stepKey ps c t) ts with _ | rest
    · rw [hr] at h; exact absurd h (by simp)
    · rw [hr] at h
      exact ⟨v, rest, rfl, rfl, by simpa using h.symm⟩

/-- At any position whose timestamp strictly exceeds some stored key, the
emitted value is the lookup at the rescan result and is independent of the
carried key. -/
theorem buildRefGo_get_crossed (ps : Profile) (ts : List ℚ) (c : ℚ)
    (out : List ℚ) (i : ℕ) (t : ℚ)
    (h : buildRefGo ps c ts = some out) (ht : ts.get? i = some t)
    (hcross : ∃ k ∈ keys ps, k < t) :
    out.get? i = lookupKey ps (stepKey ps 0 t) := by
  induction ts generalizing c out i with
  | nil => simp at ht
  | cons t₀ ts ih =>
    obtain ⟨v, rest, hl, hr, rfl⟩ := buildRefGo_cons ps c t₀ ts out h
    cases i with
    | zero =>
      have ht₀ : t₀ = t := by simpa using ht
      subst ht₀
      rw [stepKey_carry_irrelevant ps t₀ hcross 0 c]
      simpa using hl.symm
    | succ n =>
      have htn : ts.get? n = some t := by simpa using ht
      simpa using ih (stepKey ps c t₀) rest n hr htn

/-- As long as no timestamp up to position i strictly exceeds any stored
key, the tracked key is still the initial key 0 at position i. -/
theorem buildRefGo_get_zero (ps : Profile) (v : ℚ)
    (h0 : lookupKey ps 0 = some v) (ts : List ℚ) (out : List ℚ)
    (i : ℕ) (t : ℚ)
    (h : buildRefGo ps 0 ts = some out) (ht : ts.get? i = some t)
    (hprev : ∀ j t', j ≤ i → ts.get? j = some t' →
      ∀ k ∈ keys ps, ¬ k < t') :
    out.get? i = some v := by
  induction ts generalizing out i with
  | nil => simp at ht
  | cons t₀ ts ih =>
    have hstep : stepKey ps 0 t₀ = 0 :=
      stepKey_no_below ps t₀ 0
        (hprev 0 t₀ (Nat.zero_le i) (by simp))
    obtain ⟨w, rest, hl, hr, rfl⟩ := buildRefGo_cons ps 0 t₀ ts _ h
    rw [hstep] at hl hr
    have hw : w = v := by
      have := hl.symm.trans h0
      exact Option.some_inj.mp this
    cases i with
    | zero => simpa using hw
    | succ n =>
      have htn : ts.get? n = some t := by simpa using ht
      have hprev' : ∀ j t', j ≤ n → ts.get? j = some t' →
          ∀ k ∈ keys ps, ¬ k < t' := by
        intro j t' hj hjt
        exact hprev (j + 1) t' (Nat.succ_le_succ hj) (by simpa using hjt)
      simpa using ih rest n hr htn hprev'

/-! ### The rescan result for a profile stored in ascending key order -/

theorem keys_def (ps : Profile) : keys ps = ps.map Prod.fst := rfl

theorem mem_keysBelow (ps : Profile) (t k : ℚ) :
    k ∈ keysBelow ps t ↔ k ∈ keys ps ∧ k < t := by
  simp [keysBelow, List.mem_filter]

/-- A nonempty list has a last element. -/
theorem getLast?_cons_some (a : ℚ) (l : List ℚ) :
    ∃ z, (a :: l).getLast? = some z := by
  induction l generalizing a with
  | nil => exact ⟨a, rfl⟩
  | cons b l ih =>
    rw [List.getLast?_cons_cons]
    exact ih b

/-- The inner rescan lands on the last stored key strictly below val, or
keeps the tracked key when there is none. -/
theorem stepKey_eq_getLast (ps : Profile) (c t : ℚ) :
    stepKey ps c t = ((keysBelow ps t).getLast?).getD c := by
  unfold stepKey keysBelow
  induction ps generalizing c with
  | nil => rfl
  | cons p rest ih =>
    simp only [List.foldl_cons, keys_cons, List.filter_cons]
    by_cases hp : p.1 < t
    · rw [if_pos (show t > p.1 from hp), if_pos (by simpa using hp)]
      rcases e : (keys rest).filter (fun k => decide (k < t)) with _ | ⟨a, l⟩
      · rw [ih p.1, e]
        rfl
      · rw [ih p.1, e, List.getLast?_cons_cons]
        obtain ⟨z, hz⟩ := getLast?_cons_some a l
        rw [hz]
        rfl
    · rw [if_neg (show ¬ t > p.1 from hp), if_neg (by simpa using hp)]
      exact ih c

/-- In a strictly ascending list, the last element is the greatest. -/
theorem getLast_mem_max (l : List ℚ) (x : ℚ)
    (hsort : l.Pairwise (· < ·)) (h : l.getLast? = some x) :
    x ∈ l ∧ ∀ y ∈ l, y ≤ x := by
  induction l with
  | nil => simp at h
  | cons a l ih =>
    cases l with
    | nil =>
      have ha : a = x := by simpa using h
      subst ha
      exact ⟨by simp, by simp⟩
    | cons b l₂ =>
      rw [List.getLast?_cons_cons] at h
      obtain ⟨hmem, hmax⟩ := ih (List.Pairwise.of_cons hsort) h
      refine ⟨List.mem_cons_of_mem _ hmem, ?_⟩
      intro y hy
      rcases List.mem_cons.mp hy with rfl | hy₂
      · have hab : y < b := (List.pairwise_cons.mp hsort).1 b (by simp)
        exact le_trans (le_of_lt hab) (hmax b (by simp))
      · exact hmax y hy₂

/-- Filtering preserves ascending order. -/
theorem keysBelow_pairwise (ps : Profile) (t : ℚ)
    (hsort : (keys ps).Pairwise (· < ·)) :
    (keysBelow ps t).Pairwise (· < ·) :=
  List.Pairwise.sublist (List.filter_sublist _) hsort

/-- When some stored key lies below t, the filtered key list has a last
element. -/
theorem keysBelow_getLast_of_cross (ps : Profile) (t : ℚ)
    (hcross : ∃ k ∈ keys ps, k < t) :
    ∃ k, (keysBelow ps t).getLast? = some k := by
  obtain ⟨k, hk, hkt⟩ := hcross
  have hmem : k ∈ keysBelow ps t := (mem_keysBelow ps t k).mpr ⟨hk, hkt⟩
  rcases e : keysBelow ps t with _ | ⟨a, l⟩
  · rw [e] at hmem
    simp at hmem
  · exact getLast?_cons_some a l

/-- The output element at a crossed position is the lookup at the last
filtered key. -/
theorem build_reference_get_getLast (ps : Profile) (times : List ℚ)
    (i : ℕ) (t k : ℚ)
    (h0 : (0 : ℚ) ∈ keys ps)
    (ht : times.get? i = some t)
    (hk : (keysBelow ps t).getLast? = some k) :
    ∃ out, build_reference ps times = some out ∧
      out.get? i = lookupKey ps k := by
  obtain ⟨out, hout⟩ := buildRefGo_total ps times 0 h0
  have hcross : ∃ x ∈ keys ps, x < t := by
    rcases e : keysBelow ps t with _ | ⟨a, l⟩
    · rw [e] at hk
      simp at hk
    · have ha : a ∈ keysBelow ps t := by
        rw [e]
        simp
      rcases (mem_keysBelow ps t a).mp ha with ⟨h1, h2⟩
      exact ⟨a, h1, h2⟩
  have hget := buildRefGo_get_crossed ps times 0 out i t hout ht hcross
  rw [stepKey_eq_getLast, hk] at hget
  exact ⟨out, hout, by simpa using hget⟩

/-- In an ascending list, any member below the element at index i is at
most the element at index i - 1. -/
theorem sorted_le_get_pred (l : List ℚ) (hsort : l.Pairwise (· < ·))
    (i : ℕ) (hi : 0 < i) (ki kim1 x : ℚ)
    (hki : l.get? i = some ki) (hkm : l.get? (i - 1) = some kim1)
    (hx : x ∈ l) (hlt : x < ki) : x ≤ kim1 := by
  obtain ⟨hilen, hgi⟩ := List.get?_eq_some.mp hki
  obtain ⟨hmlen, hgm⟩ := List.get?_eq_some.mp hkm
  obtain ⟨⟨m, hm⟩, hgx⟩ := List.mem_iff_get.mp hx
  have hpg := List.pairwise_iff_get.mp hsort
  have hmi : m < i := by
    by_contra hge
    push_neg at hge
    rcases Nat.lt_or_ge i m with him | hmi₂
    · have hci := hpg ⟨i, hilen⟩ ⟨m, hm⟩ (Fin.mk_lt_mk.mpr him)
      rw [hgi, hgx] at hci
      exact absurd (lt_trans hci hlt) (lt_irrefl _)
    · have hmeq : m = i := le_antisymm hmi₂ hge
      subst hmeq
      rw [hgx] at hgi
      rw [hgi] at hlt
      exact absurd hlt (lt_irrefl _)
  rcases Nat.lt_or_ge m (i - 1) with hm1 | hm2
  · have hcm := hpg ⟨m, hm⟩ ⟨i - 1, hmlen⟩ (Fin.mk_lt_mk.mpr hm1)
    rw [hgx, hgm] at hcm
    exact le_of_lt hcm
  · have hmeq : m = i - 1 := by omega
    subst hmeq
    rw [hgx] at hgm
    exact le_of_eq hgm

/-! ### The two-pointer formulation refines the full-rescan specification -/

theorem keys_append (ps qs : Profile) :
    keys (ps ++ qs) = keys ps ++ keys qs := List.map_append _ _ _

theorem mem_keys (ps : Profile) (a : ℚ) :
    a ∈ keys ps ↔ ∃ q ∈ ps, q.1 = a := by
  simp [keys_def, List.mem_map]

theorem getLast?_cons_getLastD (a : ℚ) (l : List ℚ) :
    (a :: l).getLast? = some (l.getLastD a) := by
  induction l generalizing a with
  | nil => rfl
  | cons b l ih => rw [List.getLast?_cons_cons, ih b, List.getLastD_cons]

/-- Folding max over an ascending list starting below it gives the last
element. -/
theorem foldl_max_sorted (l : List ℚ) :
    ∀ a : ℚ, (∀ b ∈ l, a ≤ b) → l.Pairwise (· ≤ ·) →
      l.foldl max a = l.getLastD a := by
  induction l with
  | nil =>
    intro a _ _
    rfl
  | cons b l ih =>
    intro a ha hs
    rw [List.foldl_cons, List.getLastD_cons,
      max_eq_right (ha b (by simp))]
    exact ih b (fun c hc => (List.pairwise_cons.mp hs).1 c hc) hs.of_cons

/-- On an ascending list the maximum is the last element. -/
theorem max?_eq_getLast_sorted (l : List ℚ) (hs : l.Pairwise (· ≤ ·)) :
    l.max? = l.getLast? := by
  cases l with
  | nil => rfl
  | cons a l =>
    have h1 : (a :: l).max? = some (l.foldl max a) := rfl
    rw [h1, getLast?_cons_getLastD,
      foldl_max_sorted l a (fun b hb => (List.pairwise_cons.mp hs).1 b hb)
        hs.of_cons]

theorem foldl_min_all_ge (l : List ℚ) :
    ∀ a : ℚ, (∀ b ∈ l, a ≤ b) → l.foldl min a = a := by
  induction l with
  | nil =>
    intro a _
    rfl
  | cons b l ih =>
    intro a ha
    rw [List.foldl_cons, min_eq_left (ha b (by simp))]
    exact ih a (fun c hc => ha c (by simp [hc]))

/-- On an ascending list the minimum is the head. -/
theorem min?_eq_head_sorted (l : List ℚ) (hs : l.Pairwise (· ≤ ·)) :
    l.min? = l.head? := by
  cases l with
  | nil => rfl
  | cons a l =>
    have h1 : (a :: l).min? = some (l.foldl min a) := rfl
    rw [h1,
      foldl_min_all_ge l a (fun b hb => (List.pairwise_cons.mp hs).1 b hb)]
    rfl

/-- Dict lookup reaches the head of the second segment when no earlier key
matches. -/
theorem lookupKey_append_head (front : Profile) (cur : Entry)
    (rest : Profile) (hne : ∀ q ∈ front, q.1 ≠ cur.1) :
    lookupKey (front ++ cur :: rest) cur.1 = some cur.2 := by
  induction front with
  | nil => simp [lookupKey]
  | cons p front ih =>
    rw [List.cons_append]
    simp only [lookupKey]
    rw [if_neg (hne p (by simp))]
    exact ih (fun q hq => hne q (by simp [hq]))

/-- The full-rescan specification at a timestamp t, read off a split of the
profile into entries below t, the cursor entry, and entries at or above t. -/
theorem refSpecAt_of_state (ps front : Profile) (cur : Entry)
    (rest : Profile) (t : ℚ)
    (hsplit : ps = front ++ cur :: rest)
    (hsort : (keys ps).Pairwise (· < ·))
    (hfront : ∀ q ∈ front, q.1 < t)
    (hcur : front = [] ∨ cur.1 < t)
    (hrest : ∀ q ∈ rest, t ≤ q.1) :
    refSpecAt ps t = cur.2 := by
  subst hsplit
  have hsortk : (keys front ++ cur.1 :: keys rest).Pairwise (· < ·) := by
    rw [keys_append, keys_cons] at hsort
    exact hsort
  have hfr : ∀ x ∈ keys front, x < cur.1 := fun x hx =>
    (List.pairwise_append.mp hsortk).2.2 x hx cur.1 (by simp)
  have hrfilter : (keys rest).filter (fun k => decide (k < t)) = [] := by
    rw [List.filter_eq_nil_iff]
    intro a ha
    rcases (mem_keys rest a).mp ha with ⟨q, hq, rfl⟩
    simpa using not_lt.mpr (hrest q hq)
  have hffront : (keys front).filter (fun k => decide (k < t)) =
      keys front := by
    rw [List.filter_eq_self]
    intro a ha
    rcases (mem_keys front a).mp ha with ⟨q, hq, rfl⟩
    simpa using hfront q hq
  by_cases hc : cur.1 < t
  · have hfilter :
        (keys (front ++ cur :: rest)).filter (fun k => decide (k < t)) =
          keys front ++ [cur.1] := by
      rw [keys_append, keys_cons, List.filter_append, hffront,
        List.filter_cons, if_pos (by simpa using hc), hrfilter]
    have hsf : (keys front ++ [cur.1]).Pairwise (· ≤ ·) := by
      have h1 := List.Pairwise.sublist
        (@List.filter_sublist ℚ (fun k => decide (k < t))
          (keys (front ++ cur :: rest))) hsort
      rw [hfilter] at h1
      exact h1.imp le_of_lt
    have hmax :
        ((keys (front ++ cur :: rest)).filter
          (fun k => decide (k < t))).max? = some cur.1 := by
      rw [hfilter, max?_eq_getLast_sorted _ hsf, List.getLast?_concat]
    unfold refSpecAt
    rw [hmax]
    show (lookupKey (front ++ cur :: rest) cur.1).getD 0 = cur.2
    rw [lookupKey_append_head front cur rest
      (fun q hq => ne_of_lt (hfr q.1 ((mem_keys front q.1).mpr ⟨q, hq, rfl⟩)))]
    rfl
  · have hfn : front = [] := by
      rcases hcur with hfn | hcl
      · exact hfn
      · exact absurd hcl hc
    subst hfn
    rw [List.nil_append] at hsort ⊢
    have hfilter0 :
        (keys (cur :: rest)).filter (fun k => decide (k < t)) = [] := by
      rw [keys_cons, List.filter_cons, if_neg (by simpa using hc), hrfilter]
    have hmin : (keys (cur :: rest)).min? = some cur.1 := by
      rw [min?_eq_head_sorted _ (hsort.imp le_of_lt)]
      rfl
    unfold refSpecAt
    rw [hfilter0]
    show (match (keys (cur :: rest)).min? with
      | some k => (lookupKey (cur :: rest) k).getD 0
      | none => 0) = cur.2
    rw [hmin]
    show (lookupKey (cur :: rest) cur.1).getD 0 = cur.2
    simp [lookupKey]

/-- One cursor advance splits off a prefix of entries whose keys are below
t, lands on an entry that is either unchanged or below t, and leaves only
entries at or above t. -/
theorem twoPtrStep_spec (t : ℚ) (rest : Profile) :
    ∀ cur : Entry, (keys (cur :: rest)).Pairwise (· < ·) →
      ∃ mid, cur :: rest =
          mid ++ (twoPtrStep cur rest t).1 :: (twoPtrStep cur rest t).2 ∧
        (∀ q ∈ mid, q.1 < t) ∧
        ((mid = [] ∧ (twoPtrStep cur rest t).1 = cur) ∨
          (twoPtrStep cur rest t).1.1 < t) ∧
        ∀ q ∈ (twoPtrStep cur rest t).2, t ≤ q.1 := by
  induction rest with
  | nil =>
    intro cur _
    exact ⟨[], rfl, by simp, Or.inl ⟨rfl, rfl⟩, by simp [twoPtrStep]⟩
  | cons p R ih =>
    intro cur hsort
    have hk : keys (cur :: p :: R) = cur.1 :: keys (p :: R) := keys_cons _ _
    rw [hk] at hsort
    by_cases hp : p.1 < t
    · have hstep : twoPtrStep cur (p :: R) t = twoPtrStep p R t := by
        simp [twoPtrStep, hp]
      obtain ⟨mid, hsplit, hmid, hdisj, hrest⟩ := ih p hsort.of_cons
      refine ⟨cur :: mid, ?_, ?_, ?_, ?_⟩
      · rw [hstep, List.cons_append, ← hsplit]
      · intro q hq
        rcases List.mem_cons.mp hq with rfl | hq2
        · have hcp : q.1 < p.1 :=
            (List.pairwise_cons.mp hsort).1 p.1 (by simp)
          exact lt_trans hcp hp
        · exact hmid q hq2
      · rw [hstep]
        rcases hdisj with ⟨_, hfe⟩ | hlt
        · right
          rw [hfe]
          exact hp
        · right
          exact hlt
      · rw [hstep]
        exact hrest
    · have hstep : twoPtrStep cur (p :: R) t = (cur, p :: R) := by
        simp [twoPtrStep, hp]
      refine ⟨[], by rw [hstep]; simp, by simp, Or.inl ⟨rfl, by rw [hstep]⟩,
        ?_⟩
      rw [hstep]
      intro q hq
      rcases List.mem_cons.mp hq with rfl | hq2
      · exact not_lt.mp hp
      · have h2 := hsort.of_cons
        rw [keys_cons] at h2
        have hpq : p.1 < q.1 :=
          (List.pairwise_cons.mp h2).1 q.1 ((mem_keys R q.1).mpr ⟨q, hq2, rfl⟩)
        exact le_trans (not_lt.mp hp) (le_of_lt hpq)

/-- The incremental loop computes the full-rescan specification, provided
the timestamps never decrease and the profile is stored in ascending key
order. -/
theorem twoPtrGo_spec (ps : Profile)
    (hsort : (keys ps).Pairwise (· < ·)) :
    ∀ (times : List ℚ) (front : Profile) (cur : Entry) (rest : Profile),
      ps = front ++ cur :: rest →
      times.Pairwise (· ≤ ·) →
      (∀ t ∈ times, ∀ q ∈ front, q.1 < t) →
      (front = [] ∨ ∀ t ∈ times, cur.1 < t) →
      twoPtrGo cur rest times = build_reference_spec ps times := by
  intro times
  induction times with
  | nil =>
    intro front cur rest _ _ _ _
    rfl
  | cons t ts ih =>
    intro front cur rest hsplit htimes hfront hcur
    have hsortcr : (keys (cur :: rest)).Pairwise (· < ·) := by
      have h2 := hsort
      rw [hsplit, keys_append, List.pairwise_append] at h2
      exact h2.2.1
    obtain ⟨mid, hsplit2, hmid, hdisj, hrest2⟩ :=
      twoPtrStep_spec t rest cur hsortcr
    have hsplit3 : ps = (front ++ mid) ++
        (twoPtrStep cur rest t).1 :: (twoPtrStep cur rest t).2 := by
      rw [hsplit, hsplit2, List.append_assoc]
    have hts : ts.Pairwise (· ≤ ·) := htimes.of_cons
    have htle : ∀ u ∈ ts, t ≤ u := (List.pairwise_cons.mp htimes).1
    have hmemt : t ∈ t :: ts := by simp
    have hhead : refSpecAt ps t = (twoPtrStep cur rest t).1.2 := by
      apply refSpecAt_of_state ps (front ++ mid) _ _ t hsplit3 hsort
      · intro q hq
        rcases List.mem_append.mp hq with hq1 | hq2
        · exact hfront t hmemt q hq1
        · exact hmid q hq2
      · rcases hdisj with ⟨hmn, hfe⟩ | hlt
        · rcases hcur with hfn | hcl
          · left
            simp [hmn, hfn]
          · right
            rw [hfe]
            exact hcl t hmemt
        · right
          exact hlt
      · exact hrest2
    have htail : twoPtrGo (twoPtrStep cur rest t).1
        (twoPtrStep cur rest t).2 ts = build_reference_spec ps ts := by
      apply ih (front ++ mid) _ _ hsplit3 hts
      · intro u hu q hq
        rcases List.mem_append.mp hq with hq1 | hq2
        · exact lt_of_lt_of_le (hfront t hmemt q hq1) (htle u hu)
        · exact lt_of_lt_of_le (hmid q hq2) (htle u hu)
      · rcases hdisj with ⟨hmn, hfe⟩ | hlt
        · rcases hcur with hfn | hcl
          · left
            simp [hmn, hfn]
          · right
            intro u hu
            rw [hfe]
            exact hcl u (by simp [hu])
        · right
          intro u hu
          exact lt_of_lt_of_le hlt (htle u hu)
    calc twoPtrGo cur rest (t :: ts)
        = (twoPtrStep cur rest t).1.2 ::
            twoPtrGo (twoPtrStep cur rest t).1
              (twoPtrStep cur rest t).2 ts := rfl
      _ = refSpecAt ps t :: build_reference_spec ps ts := by
          rw [hhead, htail]
      _ = build_reference_spec ps (t :: ts) := rfl

end PIDGui

open PIDGui

/-! ### Claims -/

/-- C3: on profile {0:1.0, 3:0.5, 6:1.5} and times
[0, 1, 2.9, 3, 3.1, 5.9, 6, 100] the loop produces exactly
[1.0, 1.0, 1.0, 1.0, 0.5, 0.5, 0.5, 1.5]. -/
theorem c3_concrete_scenario :
    build_reference [(0, 1), (3, 1/2), (6, 3/2)]
      [0, 1, 29/10, 3, 31/10, 59/10, 6, 100] =
      some [1, 1, 1, 1, 1/2, 1/2, 1/2, 3/2] := by
  norm_num [build_reference, buildRefGo, stepKey, lookupKey]

/-- C8: for every profile containing key 0 and every time vector, the loop
never fails: the tracked key is always a stored key, so every dict lookup is
defined and the loop returns an output array. -/
theorem c8_total (ps : Profile) (times : List ℚ)
    (h0 : (0 : ℚ) ∈ keys ps) :
    ∃ out, build_reference ps times = some out :=
  buildRefGo_total ps times 0 h0

/-- C8 witness. -/
theorem c8_total_witness :
    ∃ out, build_reference ref_profile [5, -3, 12] = some out :=
  c8_total ref_profile [5, -3, 12] (by decide)

/-- C9: whenever the loop completes, the output array has exactly the length
of the input time vector; the empty time vector yields the empty output. -/
theorem c9_length (ps : Profile) :
    (∀ times out, build_reference ps times = some out →
      out.length = times.length) ∧
    build_reference ps [] = some [] :=
  ⟨fun times out h => buildRefGo_length ps times 0 out h, rfl⟩

/-- C9 witness. -/
theorem c9_length_witness :
    ([1, 1] : List ℚ).length = ([1, 2] : List ℚ).length ∧
    build_reference ref_profile [] = some [] :=
  ⟨(c9_length ref_profile).1 [1, 2] [1, 1]
      (by norm_num [build_reference, buildRefGo, stepKey, lookupKey,
        ref_profile]),
   (c9_length ref_profile).2⟩

/-- C10: the loop is a deterministic function of profile and time vector;
two runs on identical inputs produce element-wise equal output arrays. -/
theorem c10_deterministic (ps : Profile) (times : List ℚ)
    (out₁ out₂ : List ℚ)
    (h₁ : build_reference ps times = some out₁)
    (h₂ : build_reference ps times = some out₂) :
    out₁.length = out₂.length ∧ ∀ i, out₁.get? i = out₂.get? i := by
  have h : out₁ = out₂ := by
    have := h₁.symm.trans h₂
    exact Option.some_inj.mp this
  exact ⟨by rw [h], fun i => by rw [h]⟩

/-- C5 counterexample: the time vectors [100, -1] and [0, -1] agree at
position 1 (timestamp -1), yet the outputs at position 1 differ (0 versus 1):
at a timestamp below every stored key the loop emits the value of the key
carried over from the previous iteration, so the output element does not
depend only on the timestamp at that position. -/
theorem c5_counterexample :
    ([100, -1] : List ℚ).get? 1 = ([0, -1] : List ℚ).get? 1 ∧
    build_reference ref_profile [100, -1] = some [0, 0] ∧
    build_reference ref_profile [0, -1] = some [1, 1] ∧
    ([0, 0] : List ℚ).get? 1 ≠ ([1, 1] : List ℚ).get? 1 := by
  refine ⟨by norm_num, ?_, ?_, by norm_num⟩ <;>
    norm_num [build_reference, buildRefGo, stepKey, lookupKey, ref_profile]

/-- C5 amended: per-element independence holds at every position whose
timestamp strictly exceeds some stored key; two time vectors agreeing at
such a position yield equal outputs there. -/
theorem c5_amended_pointwise (ps : Profile) (ts₁ ts₂ : List ℚ) (i : ℕ)
    (t : ℚ) (out₁ out₂ : List ℚ)
    (ht₁ : ts₁.get? i = some t) (ht₂ : ts₂.get? i = some t)
    (hcross : ∃ k ∈ keys ps, k < t)
    (h₁ : build_reference ps ts₁ = some out₁)
    (h₂ : build_reference ps ts₂ = some out₂) :
    out₁.get? i = out₂.get? i := by
  rw [buildRefGo_get_crossed ps ts₁ 0 out₁ i t h₁ ht₁ hcross,
    buildRefGo_get_crossed ps ts₂ 0 out₂ i t h₂ ht₂ hcross]

/-- C5 witness. -/
theorem c5_amended_pointwise_witness :
    ([1, 1/2] : List ℚ).get? 1 = ([1, 1/2] : List ℚ).get? 1 :=
  c5_amended_pointwise ref_profile [1, 5] [2, 5] 1 5 [1, 1/2] [1, 1/2]
    (by norm_num) (by norm_num)
    ⟨0, by norm_num [keys, ref_profile]⟩
    (by norm_num [build_reference, buildRefGo, stepKey, lookupKey,
      ref_profile])
    (by norm_num [build_reference, buildRefGo, stepKey, lookupKey,
      ref_profile])

/-- C6 counterexample: every key of the fixed profile is at least 0 and the
minimum key 0 carries value 1, yet on the time vector [100, 0] the output
at position 1 (timestamp 0, below-or-equal every key) is 0, not 1: the key
25 carried over from timestamp 100 is emitted instead of the minimum key. -/
theorem c6_counterexample :
    (∀ k ∈ keys ref_profile, (0 : ℚ) ≤ k) ∧
    lookupKey ref_profile 0 = some 1 ∧
    build_reference ref_profile [100, 0] = some [0, 0] ∧
    ([0, 0] : List ℚ).get? 1 ≠ some 1 := by
  refine ⟨by decide, by norm_num [lookupKey, ref_profile], ?_, by norm_num⟩
  norm_num [build_reference, buildRefGo, stepKey, lookupKey, ref_profile]

/-- C6 amended: at a position whose timestamp does not strictly exceed any
stored key, the loop emits the value at the initialization key 0, provided
no earlier timestamp strictly exceeds a stored key either (the tracked key
is then still 0). -/
theorem c6_amended_initial_key (ps : Profile) (times : List ℚ) (v : ℚ)
    (i : ℕ) (t : ℚ)
    (h0 : lookupKey ps 0 = some v)
    (ht : times.get? i = some t)
    (hprev : ∀ j t', j ≤ i → times.get? j = some t' →
      ∀ k ∈ keys ps, ¬ k < t') :
    ∃ out, build_reference ps times = some out ∧ out.get? i = some v := by
  have h0mem : (0 : ℚ) ∈ keys ps := by
    rw [← lookupKey_isSome_iff]
    simp [h0]
  obtain ⟨out, hout⟩ := buildRefGo_total ps times 0 h0mem
  exact ⟨out, hout, buildRefGo_get_zero ps v h0 times out i t hout ht hprev⟩

/-- C6 witness. -/
theorem c6_amended_initial_key_witness :
    ∃ out, build_reference ref_profile [-5, 0] = some out ∧
      out.get? 1 = some 1 :=
  c6_amended_initial_key ref_profile [-5, 0] 1 1 0
    (by norm_num [lookupKey, ref_profile])
    (by norm_num)
    (by
      intro j t' hj hjt k hk
      have hj01 : j = 0 ∨ j = 1 := by omega
      rcases hj01 with rfl | rfl
      · have ht' : t' = -5 := by simpa using hjt.symm
        subst ht'
        revert hk
        revert k
        decide
      · have ht' : t' = 0 := by simpa using hjt.symm
        subst ht'
        revert hk
        revert k
        decide)

/-- C10 witness. -/
theorem c10_deterministic_witness :
    ([0, 1] : List ℚ).length = ([0, 1] : List ℚ).length ∧
    ∀ i, ([0, 1] : List ℚ).get? i = ([0, 1] : List ℚ).get? i :=
  c10_deterministic ref_profile [30, 1] [0, 1] [0, 1]
    (by norm_num [build_reference, buildRefGo, stepKey, lookupKey,
      ref_profile])
    (by norm_num [build_reference, buildRefGo, stepKey, lookupKey,
      ref_profile])

/-- C1 counterexample: the profile storing the mapping 0 to 1.0, 3 to 0.5
in the order [(3, 0.5), (0, 1.0)] contains key 0, the timestamp 5 exceeds
a key, and the largest key strictly below 5 is 3 with value 0.5 — yet the
loop outputs 1.0 at that position, because the rescan keeps the last stored
key below 5 (here 0), not the largest one. -/
theorem c1_counterexample :
    (0 : ℚ) ∈ keys swapped_profile ∧
    (3 : ℚ) ∈ keys swapped_profile ∧ (3 : ℚ) < 5 ∧
    (∀ x ∈ keys swapped_profile, x < 5 → x ≤ 3) ∧
    lookupKey swapped_profile 3 = some (1/2) ∧
    build_reference swapped_profile [5] = some [1] ∧
    some (1 : ℚ) ≠ some (1/2 : ℚ) := by
  refine ⟨by decide, by decide, by norm_num, by decide, ?_, ?_, by norm_num⟩
  · norm_num [lookupKey, swapped_profile]
  · norm_num [build_reference, buildRefGo, stepKey, lookupKey,
      swapped_profile]

/-- C1 amended: for every profile containing key 0 whose entries are stored
in ascending key order, at every position whose timestamp t strictly
exceeds some key, the output element is the profile value at the largest
key strictly below t. -/
theorem c1_largest_key_below (ps : Profile) (times : List ℚ) (i : ℕ)
    (t : ℚ)
    (h0 : (0 : ℚ) ∈ keys ps)
    (hsort : (keys ps).Pairwise (· < ·))
    (ht : times.get? i = some t)
    (hcross : ∃ k ∈ keys ps, k < t) :
    ∃ out k, build_reference ps times = some out ∧
      k ∈ keys ps ∧ k < t ∧ (∀ x ∈ keys ps, x < t → x ≤ k) ∧
      out.get? i = lookupKey ps k := by
  obtain ⟨k, hk⟩ := keysBelow_getLast_of_cross ps t hcross
  obtain ⟨out, hout, hgi⟩ :=
    build_reference_get_getLast ps times i t k h0 ht hk
  obtain ⟨hmem, hmax⟩ :=
    getLast_mem_max _ k (keysBelow_pairwise ps t hsort) hk
  rcases (mem_keysBelow ps t k).mp hmem with ⟨hkk, hkt⟩
  refine ⟨out, k, hout, hkk, hkt, ?_, hgi⟩
  intro x hx hxt
  exact hmax x ((mem_keysBelow ps t x).mpr ⟨hx, hxt⟩)

/-- C1 witness. -/
theorem c1_largest_key_below_witness :
    ∃ out k, build_reference ref_profile [4] = some out ∧
      k ∈ keys ref_profile ∧ k < 4 ∧
      (∀ x ∈ keys ref_profile, x < 4 → x ≤ k) ∧
      out.get? 0 = lookupKey ref_profile k :=
  c1_largest_key_below ref_profile [4] 0 4 (by decide) (by decide)
    (by decide) ⟨3, by decide, by decide⟩

/-- C2 counterexample: in the profile storing the mapping 0 to 1.0, 3 to
0.5, 6 to 1.5 in descending order, the key 6 has predecessor 3 in the
ascending key order (3 < 6 and every key below 6 is at most 3), and the
value at 3 is 0.5 — yet at timestamp exactly 6 the loop outputs 1.0, the
value at key 0, because the rescan keeps the last stored key below 6. -/
theorem c2_counterexample :
    (0 : ℚ) ∈ keys rev_profile ∧
    (3 : ℚ) ∈ keys rev_profile ∧ (6 : ℚ) ∈ keys rev_profile ∧
    (3 : ℚ) < 6 ∧ (∀ x ∈ keys rev_profile, x < 6 → x ≤ 3) ∧
    lookupKey rev_profile 3 = some (1/2) ∧
    build_reference rev_profile [6] = some [1] ∧
    some (1 : ℚ) ≠ some (1/2 : ℚ) := by
  refine ⟨by decide, by decide, by decide, by norm_num, by decide,
    ?_, ?_, by norm_num⟩
  · norm_num [lookupKey, rev_profile]
  · norm_num [build_reference, buildRefGo, stepKey, lookupKey, rev_profile]

/-- C2 amended: for every profile containing key 0 whose entries are stored
in ascending key order, at every position whose timestamp equals the key at
index i of the key list (with i > 0), the output element is the profile
value at the key at index i - 1: the comparison is strict, so the key is
not yet selected at the instant the timestamp equals it. -/
theorem c2_strict_boundary (ps : Profile) (times : List ℚ) (j i : ℕ)
    (ki kim1 : ℚ)
    (h0 : (0 : ℚ) ∈ keys ps)
    (hsort : (keys ps).Pairwise (· < ·))
    (hi : 0 < i)
    (hki : (keys ps).get? i = some ki)
    (hkm : (keys ps).get? (i - 1) = some kim1)
    (ht : times.get? j = some ki) :
    ∃ out, build_reference ps times = some out ∧
      kim1 < ki ∧ out.get? j = lookupKey ps kim1 := by
  obtain ⟨hilen, hgi⟩ := List.get?_eq_some.mp hki
  obtain ⟨hmlen, hgm⟩ := List.get?_eq_some.mp hkm
  have hpg := List.pairwise_iff_get.mp hsort
  have hlt : kim1 < ki := by
    have hcm := hpg ⟨i - 1, hmlen⟩ ⟨i, hilen⟩ (Fin.mk_lt_mk.mpr (by omega))
    rw [hgi, hgm] at hcm
    exact hcm
  have hkimem : kim1 ∈ keys ps :=
    List.mem_iff_get.mpr ⟨⟨i - 1, hmlen⟩, hgm⟩
  have hcross : ∃ k ∈ keys ps, k < ki := ⟨kim1, hkimem, hlt⟩
  obtain ⟨k, hk⟩ := keysBelow_getLast_of_cross ps ki hcross
  obtain ⟨hmem, hmax⟩ :=
    getLast_mem_max _ k (keysBelow_pairwise ps ki hsort) hk
  rcases (mem_keysBelow ps ki k).mp hmem with ⟨hkk, hkt⟩
  have h1 : kim1 ≤ k :=
    hmax kim1 ((mem_keysBelow ps ki kim1).mpr ⟨hkimem, hlt⟩)
  have h2 : k ≤ kim1 :=
    sorted_le_get_pred (keys ps) hsort i hi ki kim1 k hki hkm hkk hkt
  have hkey : k = kim1 := le_antisymm h2 h1
  obtain ⟨out, hout, hgj⟩ :=
    build_reference_get_getLast ps times j ki k h0 ht hk
  exact ⟨out, hout, hlt, by rw [← hkey]; exact hgj⟩

/-- C2 witness. -/
theorem c2_strict_boundary_witness :
    ∃ out, build_reference ref_profile [3] = some out ∧
      (0 : ℚ) < 3 ∧ out.get? 0 = lookupKey ref_profile 0 :=
  c2_strict_boundary ref_profile [3] 0 1 3 0 (by decide) (by decide)
    (by decide) (by decide) (by decide) (by decide)

/-- C4 counterexample: two profiles with the same key-to-value mapping
(0 to 1.0, 3 to 0.5) but opposite storage order give different outputs on
the time vector [5]: the loop emits the value of the last stored key below
the timestamp, so storage order changes the result. -/
theorem c4_counterexample :
    List.Perm sorted_pair_profile swapped_profile ∧
    build_reference sorted_pair_profile [5] = some [1/2] ∧
    build_reference swapped_profile [5] = some [1] ∧
    some [(1 : ℚ)/2] ≠ some [(1 : ℚ)] := by
  refine ⟨List.Perm.swap _ _ _, ?_, ?_, by norm_num⟩
  · norm_num [build_reference, buildRefGo, stepKey, lookupKey,
      sorted_pair_profile]
  · norm_num [build_reference, buildRefGo, stepKey, lookupKey,
      swapped_profile]

/-- C4 amended: the loop does depend on storage order in general, but two
profiles with the same entries both stored in ascending key order produce
the same output array on every time vector. -/
theorem c4_sorted_order_irrelevant (ps₁ ps₂ : Profile) (times : List ℚ)
    (hs₁ : (keys ps₁).Pairwise (· < ·))
    (hs₂ : (keys ps₂).Pairwise (· < ·))
    (hperm : List.Perm ps₁ ps₂) :
    build_reference ps₁ times = build_reference ps₂ times := by
  rw [keys_def] at hs₁ hs₂
  have hs₁' : ps₁.Pairwise (fun p q : Entry => p.1 < q.1) :=
    List.pairwise_map.mp hs₁
  have hs₂' : ps₂.Pairwise (fun p q : Entry => p.1 < q.1) :=
    List.pairwise_map.mp hs₂
  haveI : IsAntisymm Entry (fun p q : Entry => p.1 < q.1) :=
    ⟨fun a b h1 h2 => absurd (lt_trans h1 h2) (lt_irrefl _)⟩
  rw [List.eq_of_perm_of_sorted hperm hs₁' hs₂']

/-- C4 witness. -/
theorem c4_sorted_order_irrelevant_witness :
    build_reference sorted_pair_profile [7] =
      build_reference sorted_pair_profile [7] :=
  c4_sorted_order_irrelevant sorted_pair_profile sorted_pair_profile [7]
    (by decide) (by decide) (List.Perm.refl _)

/-- C7: for every nonempty profile stored in ascending key order and every
monotonically non-decreasing time vector, the incremental two-pointer
formulation computes the same output array as the per-timestamp full-rescan
specification (largest key strictly below each timestamp, with fallback to
the smallest key). -/
theorem c7_two_pointer_refines_rescan (ps : Profile) (times : List ℚ)
    (hne : ps ≠ [])
    (hsort : (keys ps).Pairwise (· < ·))
    (hmono : times.Pairwise (· ≤ ·)) :
    two_pointer_ref ps times = build_reference_spec ps times := by
  cases ps with
  | nil => exact absurd rfl hne
  | cons p rest =>
    have h := twoPtrGo_spec (p :: rest) hsort times [] p rest rfl hmono
      (by simp) (Or.inl rfl)
    simpa [two_pointer_ref] using h

/-- C7 witness. -/
theorem c7_two_pointer_refines_rescan_witness :
    two_pointer_ref sorted_pair_profile [1, 4, 9] =
      build_reference_spec sorted_pair_profile [1, 4, 9] :=
  c7_two_pointer_refines_rescan sorted_pair_profile [1, 4, 9]
    (by simp [sorted_pair_profile]) (by decide) (by decide)
